import Mathlib

/-!
Shallow embedding of the grin persistent chain-state layer:
the RocksDB-backed key/value `Store` with its `Batch` and key codec
(src/store/src/lib.rs) and the `Tip` type with its binary encoding and the
`ChainStore` contract (src/chain/src/types.rs).

Bytes are modelled as natural numbers and byte strings as `List Nat`.
The storage engine itself (RocksDB) is modelled by its pure key/value
semantics: an association list where the most recent `put` for a key wins.
Engine I/O faults (the `RocksDbErr` path out of `get`/`put`/`delete`) have
no counterpart in the pure model; every other control path is translated
from the source.
-/

namespace Grin

/-- Separator byte, `const SEP: u8 = ':' as u8` in src/store/src/lib.rs. -/
def SEP : Nat := 58

/-- A storage key: a byte string. -/
abbrev Key := List Nat

/-- A stored value: a byte string. -/
abbrev Val := List Nat

/-- Modelled from the spec: the serialization error type `ser::Error` of the
`grin_core` crate, which is not among the given sources.  Only its existence
as a carrier distinct from the other error kinds matters to this layer. -/
inductive SerError where
  | corruptedData
deriving DecidableEq

/-- The error enum of src/store/src/lib.rs: `NotFoundErr`, `RocksDbErr(String)`
wrapping an engine fault, and `SerErr` wrapping a serialization error. -/
inductive Error where
  | NotFoundErr
  | RocksDbErr (s : String)
  | SerErr (e : SerError)
deriving DecidableEq

/-- Pure state of the storage engine: association list, newest entry first. -/
abbrev Store := List (Key × Val)

/-- `Store::put`: the newest write for a key shadows any older entry. -/
def storePut (k : Key) (v : Val) (s : Store) : Store :=
  (k, v) :: s

/-- Lookup underlying `Store::get`: first (newest) entry for the key. -/
def storeGet (k : Key) : Store → Option Val
  | [] => none
  | kv :: rest => if kv.1 = k then some kv.2 else storeGet k rest

/-- `Store::delete`: removes every entry recorded for the key. -/
def storeDelete (k : Key) : Store → Store
  | [] => []
  | kv :: rest => if kv.1 = k then storeDelete k rest else kv :: storeDelete k rest

/-- `Store::get`: absence is the `Ok(None)` outcome, never an error.  The only
`Err` path in the source is a RocksDB engine fault, outside the pure model. -/
def get (s : Store) (k : Key) : Except Error (Option Val) :=
  Except.ok (storeGet k s)

/-- `option_to_not_found` of src/store/src/lib.rs. -/
def option_to_not_found {T : Type} : Except Error (Option T) → Except Error T
  | Except.ok none => Except.error Error.NotFoundErr
  | Except.ok (some o) => Except.ok o
  | Except.error e => Except.error e

/-- Outcome of `ser::deserialize` lifted to the store error type, as done in
`get_ser_limited`: a decoded value becomes `Ok(Some(_))`, a serialization
failure becomes `Err(SerErr(_))`. -/
def decodeOutcome {T : Type} : Except SerError T → Except Error (Option T)
  | Except.ok v => Except.ok (some v)
  | Except.error e => Except.error (Error.SerErr e)

/-- `Store::get_ser_limited`.  The deserializer for the target type is passed
explicitly (the source is generic over `T: ser::Readable<T>`).  The slice
`&val[..len]` taken when `len > 0` is unguarded in the source and panics when
`len` exceeds the stored length; the panic is modelled as the `none` result. -/
def get_ser_limited {T : Type} (deser : Val → Except SerError T)
    (s : Store) (k : Key) (len : Nat) : Option (Except Error (Option T)) :=
  match storeGet k s with
  | none => some (Except.ok none)
  | some val =>
    if 0 < len then
      if len ≤ val.length then some (decodeOutcome (deser (val.take len)))
      else none
    else some (decodeOutcome (deser val))

/-- `Store::get_ser`: `get_ser_limited` with `len = 0`. -/
def get_ser {T : Type} (deser : Val → Except SerError T)
    (s : Store) (k : Key) : Option (Except Error (Option T)) :=
  get_ser_limited deser s k 0

/-- State of a `Batch`: the staged key/value pairs, oldest first, mirroring a
RocksDB `WriteBatch`. -/
abbrev Batch := List (Key × Val)

/-- `Batch::put_ser`: stages an already-encoded write; an encoding failure
aborts the whole staged sequence with `SerErr`. -/
def batchPutSer (b : Batch) (k : Key) (encoded : Except SerError Val) :
    Except Error Batch :=
  match encoded with
  | Except.ok data => Except.ok (b ++ [(k, data)])
  | Except.error e => Except.error (Error.SerErr e)

/-- `Store::write` applied to a finished batch: every staged write is applied
to the store, in staging order. -/
def commitBatch (s : Store) (b : Batch) : Store :=
  b.foldl (fun st kv => storePut kv.1 kv.2 st) s

/-- One batch session: stage the given writes, then either call `write`
(`commitFlag = true`) or drop the batch without committing.  Staging touches
only the batch value, so the store is changed solely by the commit. -/
def runBatchSession (s : Store) (stages : Batch) (commitFlag : Bool) : Store :=
  if commitFlag then commitBatch s stages else s

/-- `to_key` of src/store/src/lib.rs: `[p][SEP][id]`. -/
def to_key (p : Nat) (id : Val) : Key :=
  p :: SEP :: id

/-- Big-endian byte encoding of a natural number on `w` bytes, byte `i` from
the front being `(n / 256^(w-1-i)) % 256`; for `w = 8` this is exactly
`write_u64::<BigEndian>` of the byteorder crate on a `u64`. -/
def natToBytesBE : Nat → Nat → List Nat
  | 0, _ => []
  | w + 1, n => (n / 256 ^ w) % 256 :: natToBytesBE w n

/-- Value of a big-endian byte string. -/
def bytesToNatBE : List Nat → Nat
  | [] => 0
  | b :: bs => b * 256 ^ bs.length + bytesToNatBE bs

/-- `u64_to_key` of src/store/src/lib.rs: the 8 big-endian bytes of `val`,
with `SEP` then the tag byte inserted at the front. -/
def u64_to_key (p : Nat) (val : Nat) : Key :=
  p :: SEP :: natToBytesBE 8 val

/-- Boolean strict lexicographic order on byte strings, the order RocksDB
uses for its default comparator. -/
def lexLt : List Nat → List Nat → Bool
  | [], [] => false
  | [], _ :: _ => true
  | _ :: _, [] => false
  | a :: as, b :: bs => if a < b then true else if a = b then lexLt as bs else false

/-- A fixed-width hash.  Modelled from the spec: `core::core::hash::Hash` is
not among the given sources; grin hashes are 32 bytes wide, carried here as a
byte string whose length is constrained where the encoding needs it. -/
structure Hash where
  data : List Nat
deriving DecidableEq

/-- Modelled from the spec: `core::core::target::Difficulty`, the fixed-width
cumulative difficulty value, with `Difficulty::one()` as the base unit and an
8-byte big-endian encoding. -/
structure Difficulty where
  num : Nat
deriving DecidableEq

/-- `Difficulty::one()`, the base unit. -/
def Difficulty.one : Difficulty := ⟨1⟩

/-- `Tip` of src/chain/src/types.rs. -/
structure Tip where
  height : Nat
  last_block_h : Hash
  prev_block_h : Hash
  total_difficulty : Difficulty
deriving DecidableEq

/-- `Tip::new` of src/chain/src/types.rs: genesis tip at height zero. -/
def Tip.new (gbh : Hash) : Tip :=
  { height := 0
    last_block_h := gbh
    prev_block_h := gbh
    total_difficulty := Difficulty.one }

/-- `impl ser::Writeable for Tip`: 8-byte big-endian height, the two hashes
as fixed bytes, then the difficulty. -/
def tipWrite (t : Tip) : List Nat :=
  natToBytesBE 8 t.height ++ t.last_block_h.data ++ t.prev_block_h.data ++
    natToBytesBE 8 t.total_difficulty.num

/-- A reader over a byte string: take `n` bytes, return them and the rest;
fails when fewer than `n` bytes remain. -/
def read_bytes (n : Nat) (r : List Nat) : Option (List Nat × List Nat) :=
  if n ≤ r.length then some (r.take n, r.drop n) else none

/-- `Reader::read_u64`: 8 bytes, big-endian. -/
def read_u64 (r : List Nat) : Option (Nat × List Nat) :=
  (read_bytes 8 r).map (fun br => (bytesToNatBE br.1, br.2))

/-- `Hash::read`: the fixed hash width of bytes. -/
def hashRead (r : List Nat) : Option (Hash × List Nat) :=
  (read_bytes 32 r).map (fun br => (⟨br.1⟩, br.2))

/-- `impl ser::Readable<Tip> for Tip`: height, last hash, previous hash,
difficulty, in that order. -/
def tipRead (r : List Nat) : Option (Tip × List Nat) :=
  (read_u64 r).bind (fun hr =>
    (hashRead hr.2).bind (fun lr =>
      (hashRead lr.2).bind (fun pr =>
        (read_u64 pr.2).map (fun dr =>
          ({ height := hr.1
             last_block_h := lr.1
             prev_block_h := pr.1
             total_difficulty := ⟨dr.1⟩ }, dr.2)))))

/-- Deserializer for `Tip`, as `get_ser` would instantiate it. -/
def tipDeser (bytes : Val) : Except SerError Tip :=
  match tipRead bytes with
  | some tr => Except.ok tr.1
  | none => Except.error SerError.corruptedData

/-- Modelled from the spec: the tag byte reserved for the head pointer in the
`ChainKVStore` implementation, which is not among the given sources; the spec
only requires the reserved tag bytes to be pairwise distinct. -/
def headKeyTag : Nat := 72

/-- Modelled from the spec: the tag byte reserved for the header-head
pointer; distinct from `headKeyTag`. -/
def headerHeadKeyTag : Nat := 73

/-- Modelled from the spec: the tag byte reserved for height-index entries. -/
def headerHeightTag : Nat := 56

/-- Singleton key of the head pointer. -/
def headKey : Key := [headKeyTag]

/-- Singleton key of the header-head pointer. -/
def headerHeadKey : Key := [headerHeadKeyTag]

/-- Key of the height-index entry for a height. -/
def heightIndexKey (h : Nat) : Key := u64_to_key headerHeightTag h

/-- Modelled from the spec: `save_head` — unconditional overwrite of the head
pointer singleton with the encoded tip. -/
def save_head (s : Store) (t : Tip) : Store :=
  storePut headKey (tipWrite t) s

/-- Modelled from the spec: `save_header_head` — unconditional overwrite of
the header-head pointer singleton with the encoded tip. -/
def save_header_head (s : Store) (t : Tip) : Store :=
  storePut headerHeadKey (tipWrite t) s

/-- Modelled from the spec: `head()` — read the head-pointer singleton,
absence becoming `NotFoundErr` via `option_to_not_found`. -/
def headOf (s : Store) : Option (Except Error Tip) :=
  (get_ser tipDeser s headKey).map option_to_not_found

/-- Modelled from the spec: `get_header_head()` — read the header-head
pointer singleton, absence becoming `NotFoundErr`. -/
def get_header_head (s : Store) : Option (Except Error Tip) :=
  (get_ser tipDeser s headerHeadKey).map option_to_not_found

/-- Modelled from the spec: the fields of `core::core::BlockHeader` this
layer reads — the header height, the declared previous-block hash, and the
header's own content hash (`bh.hash()`), carried as an attribute since the
hashing itself belongs to the external core crate. -/
structure BlockHeader where
  height : Nat
  previous : Hash
  hashVal : Hash
deriving DecidableEq

/-- The error value reported for a height-index consistency violation.  The
source `Error` enum of src/store/src/lib.rs has no dedicated variant for it,
so the violation is carried by the string-bearing engine variant; what the
theorems use is only that this value differs from `NotFoundErr`. -/
def consistencyErr : Error :=
  Error.RocksDbErr r"inconsistent height index"

/-- Modelled from the spec: `setup_height` (`index_height`) — before writing
`height -> hash(header)`, require that the entry at `height - 1` exists
(absence is plain `NotFoundErr`) and equals the header's declared previous
hash (disagreement is the consistency violation, distinct from `NotFoundErr`);
the genesis header at height 0 has no predecessor to check. -/
def setup_height (s : Store) (bh : BlockHeader) : Except Error Store :=
  if bh.height = 0 then
    Except.ok (storePut (heightIndexKey 0) bh.hashVal.data s)
  else
    match storeGet (heightIndexKey (bh.height - 1)) s with
    | none => Except.error Error.NotFoundErr
    | some prevBytes =>
      if prevBytes = bh.previous.data then
        Except.ok (storePut (heightIndexKey bh.height) bh.hashVal.data s)
      else
        Except.error consistencyErr

/-- A raw operation against the store, to speak about keys never written. -/
inductive Op where
  | putOp (k : Key) (v : Val)
  | delOp (k : Key)
deriving DecidableEq

/-- Apply one raw operation. -/
def applyOp (s : Store) : Op → Store
  | Op.putOp k v => storePut k v s
  | Op.delOp k => storeDelete k s

/-- Run a history of raw operations against the empty (freshly opened) store. -/
def runOps (ops : List Op) : Store :=
  ops.foldl applyOp []

/-- Whether an operation writes the given key. -/
def writesKey (k : Key) : Op → Bool
  | Op.putOp k2 _ => k2 = k
  | Op.delOp _ => false

/-- Last value staged for a key in a batch, if any. -/
def lastStaged : Batch → Key → Option Val
  | [], _ => none
  | kv :: b, k =>
    match lastStaged b k with
    | some v => some v
    | none => if kv.1 = k then some kv.2 else none

theorem storeGet_storePut_self (k : Key) (v : Val) (s : Store) :
    storeGet k (storePut k v s) = some v := by
  simp [storeGet, storePut]

theorem storeGet_storePut_other (k k2 : Key) (v : Val) (s : Store) (hne : k2 ≠ k) :
    storeGet k (storePut k2 v s) = storeGet k s := by
  simp [storeGet, storePut, hne]

theorem storeGet_storeDelete (k k2 : Key) (s : Store) :
    storeGet k (storeDelete k2 s) = if k2 = k then none else storeGet k s := by
  induction s with
  | nil => simp [storeDelete, storeGet]
  | cons kv rest ih =>
    simp only [storeDelete]
    by_cases h1 : kv.1 = k2
    · rw [if_pos h1, ih]
      by_cases h2 : k2 = k
      · simp [h2]
      · have h3 : ¬ kv.1 = k := by rw [h1]; exact h2
        simp [storeGet, h2, h3]
    · rw [if_neg h1]
      simp only [storeGet]
      by_cases h3 : kv.1 = k
      · have h2 : ¬ k2 = k := fun e => h1 (h3.trans e.symm)
        rw [if_pos h3, if_neg h2, if_pos h3]
      · simp [h3, ih]

theorem get_ser_limited_storePut_other {T : Type} (deser : Val → Except SerError T)
    (s : Store) (k k2 : Key) (v : Val) (len : Nat) (hne : k2 ≠ k) :
    get_ser_limited deser (storePut k2 v s) k len = get_ser_limited deser s k len := by
  simp only [get_ser_limited, storeGet_storePut_other k k2 v s hne]

theorem storeGet_foldl_applyOp_none (ops : List Op) (k : Key) (s : Store)
    (hw : ∀ op ∈ ops, writesKey k op = false) (h0 : storeGet k s = none) :
    storeGet k (ops.foldl applyOp s) = none := by
  induction ops generalizing s with
  | nil => exact h0
  | cons op rest ih =>
    have hop : writesKey k op = false := hw op (List.mem_cons_self op rest)
    have hrest : ∀ op2 ∈ rest, writesKey k op2 = false :=
      fun op2 hm => hw op2 (List.mem_cons_of_mem op hm)
    cases op with
    | putOp k2 v =>
      have hne : k2 ≠ k := by
        intro e
        simp [writesKey, e] at hop
      exact ih (storePut k2 v s) hrest (by rw [storeGet_storePut_other k k2 v s hne]; exact h0)
    | delOp k2 =>
      refine ih (storeDelete k2 s) hrest ?_
      rw [storeGet_storeDelete k k2 s]
      by_cases h : k2 = k
      · simp [h]
      · simp [h, h0]

theorem storeGet_commitBatch_not_mem (s : Store) (b : Batch) (k : Key)
    (h : k ∉ b.map Prod.fst) :
    storeGet k (commitBatch s b) = storeGet k s := by
  induction b generalizing s with
  | nil => rfl
  | cons kv rest ih =>
    have h1 : kv.1 ≠ k := by
      intro e
      exact h (by simp [e])
    have h2 : k ∉ rest.map Prod.fst := fun hm => h (by simp [hm])
    calc storeGet k (commitBatch s (kv :: rest))
        = storeGet k (commitBatch (storePut kv.1 kv.2 s) rest) := rfl
      _ = storeGet k (storePut kv.1 kv.2 s) := ih (storePut kv.1 kv.2 s) h2
      _ = storeGet k s := storeGet_storePut_other k kv.1 kv.2 s h1

theorem storeGet_commitBatch_mem (s : Store) (b : Batch)
    (hnd : (b.map Prod.fst).Nodup) :
    ∀ kv ∈ b, storeGet kv.1 (commitBatch s b) = some kv.2 := by
  induction b generalizing s with
  | nil => intro kv hm; exact absurd hm (List.not_mem_nil kv)
  | cons kv0 rest ih =>
    have hnd2 : kv0.1 ∉ rest.map Prod.fst ∧ (rest.map Prod.fst).Nodup := by
      simpa [List.nodup_cons] using hnd
    intro kv hm
    rcases List.mem_cons.mp hm with he | hr
    · subst he
      calc storeGet kv.1 (commitBatch s (kv :: rest))
          = storeGet kv.1 (commitBatch (storePut kv.1 kv.2 s) rest) := rfl
        _ = storeGet kv.1 (storePut kv.1 kv.2 s) :=
            storeGet_commitBatch_not_mem (storePut kv.1 kv.2 s) rest kv.1 hnd2.1
        _ = some kv.2 := storeGet_storePut_self kv.1 kv.2 s
    · exact ih (storePut kv0.1 kv0.2 s) hnd2.2 kv hr

/-- Claim C6: for every hash `g`, the genesis constructor `Tip::new(g)`
returns a tip with height 0, `last_block_h = g`, `prev_block_h = g`, and
total difficulty equal to the base unit `Difficulty::one()`. -/
theorem tip_new_genesis (g : Hash) :
    (Tip.new g).height = 0 ∧ (Tip.new g).last_block_h = g ∧
    (Tip.new g).prev_block_h = g ∧ (Tip.new g).total_difficulty = Difficulty.one :=
  ⟨rfl, rfl, rfl, rfl⟩

/-- Claim C4: for every key `k` and every byte string `v` — the empty string
and strings containing the separator byte included — `put(k, v)` immediately
followed by `get(k)` returns exactly `v`, unmodified. -/
theorem put_then_get_returns_value (s : Store) (k : Key) (v : Val) :
    storeGet k (storePut k v s) = some v ∧
    get (storePut k v s) k = Except.ok (some v) := by
  refine ⟨storeGet_storePut_self k v s, ?_⟩
  simp [get, storeGet_storePut_self k v s]

/-- Claim C7: a key never written by any operation in the store's history
reads back as the absent outcome: `get` returns `Ok(None)`, never an error,
and `get_ser` / `get_ser_limited` likewise return absent, never a decode
failure and never a panic. -/
theorem never_written_key_reads_absent (ops : List Op) (k : Key)
    (hw : ∀ op ∈ ops, writesKey k op = false) :
    get (runOps ops) k = Except.ok none ∧
    ∀ (T : Type) (deser : Val → Except SerError T) (len : Nat),
      get_ser_limited deser (runOps ops) k len = some (Except.ok none) := by
  have h : storeGet k (runOps ops) = none :=
    storeGet_foldl_applyOp_none ops k [] hw rfl
  constructor
  · simp [get, h]
  · intro T deser len
    simp [get_ser_limited, h]

theorem never_written_key_reads_absent_witness :
    get (runOps [Op.putOp [1] [2, 3], Op.delOp [4]]) [9] = Except.ok none ∧
    get_ser_limited tipDeser (runOps [Op.putOp [1] [2, 3], Op.delOp [4]]) [9] 0 =
      some (Except.ok none) := by
  have h := never_written_key_reads_absent [Op.putOp [1] [2, 3], Op.delOp [4]] [9]
    (by decide)
  exact ⟨h.1, h.2 Tip tipDeser 0⟩

/-- Claim C10: `get_ser_limited` is total only when a nonzero requested
length does not exceed the stored value's length: the slice taken before
decoding is unguarded, so a stored value shorter than a nonzero `len` makes
the operation panic (the `none` outcome) instead of returning an error, while
`len` within bounds always produces a returned result. -/
theorem get_ser_limited_short_value_panics {T : Type}
    (deser : Val → Except SerError T) (s : Store) (k : Key) (len : Nat) (val : Val)
    (hv : storeGet k s = some val) (hlen : 0 < len) :
    (val.length < len → get_ser_limited deser s k len = none) ∧
    (len ≤ val.length → ∃ r, get_ser_limited deser s k len = some r) := by
  constructor
  · intro h
    simp only [get_ser_limited, hv, if_pos hlen, if_neg (by omega : ¬ len ≤ val.length)]
  · intro h
    exact ⟨decodeOutcome (deser (val.take len)), by
      simp only [get_ser_limited, hv, if_pos hlen, if_pos h]⟩

theorem get_ser_limited_short_value_panics_witness :
    get_ser_limited (fun v => Except.ok v) (storePut [5] [1, 2] []) [5] 3 = none :=
  (get_ser_limited_short_value_panics (fun v => Except.ok v)
    (storePut [5] [1, 2] []) [5] 3 [1, 2] rfl (by decide)).1 (by decide)

/-- Claim C8, as stated, is false at `max_bytes = 0`: there `get_ser_limited`
decodes the entire stored value, not its first 0 bytes — witnessed with the
identity deserializer on the stored value `[1, 2, 3]`. -/
theorem get_ser_limited_zero_len_counterexample :
    get_ser_limited (fun v => Except.ok v) (storePut [5] [1, 2, 3] []) [5] 0 ≠
      some (decodeOutcome (Except.ok (([1, 2, 3] : List Nat).take 0))) := by
  intro h
  have h2 : some (Except.ok (some ([1, 2, 3] : List Nat))) =
      some (Except.ok (some ([] : List Nat))) := h
  simp at h2

/-- Claim C8 (amended): for every present stored value and every nonzero
`max_bytes` not exceeding the stored length, `get_ser_limited` decodes
exactly the first `max_bytes` bytes of the stored value (`max_bytes = 0`
instead decodes the entire value). -/
theorem get_ser_limited_decodes_first_len {T : Type}
    (deser : Val → Except SerError T) (s : Store) (k : Key) (len : Nat) (val : Val)
    (hv : storeGet k s = some val) (hlen : 0 < len) (hle : len ≤ val.length) :
    get_ser_limited deser s k len = some (decodeOutcome (deser (val.take len))) := by
  simp only [get_ser_limited, hv, if_pos hlen, if_pos hle]

theorem get_ser_limited_decodes_first_len_witness :
    get_ser_limited (fun v => Except.ok v) (storePut [5] [1, 2, 3] []) [5] 2 =
      some (decodeOutcome (Except.ok ([1, 2]))) :=
  (get_ser_limited_decodes_first_len (fun v => Except.ok v)
    (storePut [5] [1, 2, 3] []) [5] 2 [1, 2, 3] rfl (by decide) (by decide)).trans
    rfl

/-- Claim C2, as stated, is false when two staged writes share one key: after
committing a batch that staged `[0] -> [1]` and then `[0] -> [2]`, the pair
`([0], [1])` is not visible — the later staged value wins. -/
theorem batch_duplicate_key_counterexample :
    ¬ ∀ kv ∈ ([([0], [1]), ([0], [2])] : Batch),
        storeGet kv.1 (runBatchSession [] [([0], [1]), ([0], [2])] true) = some kv.2 := by
  decide

/-- Claim C2 (amended): for every store state and every staged sequence whose
keys are pairwise distinct, committing the batch makes every staged key/value
pair visible to subsequent gets, and discarding the batch without calling
write leaves the store exactly as it was. -/
theorem batch_commit_all_or_nothing (s : Store) (stages : Batch)
    (hnd : (stages.map Prod.fst).Nodup) :
    (∀ kv ∈ stages, storeGet kv.1 (runBatchSession s stages true) = some kv.2) ∧
    runBatchSession s stages false = s := by
  refine ⟨?_, rfl⟩
  intro kv hm
  exact storeGet_commitBatch_mem s stages hnd kv hm

theorem batch_commit_all_or_nothing_witness :
    storeGet [1] (runBatchSession [] [([1], [7]), ([2], [8])] true) = some [7] ∧
    runBatchSession [] [([1], [7]), ([2], [8])] false = [] := by
  have h := batch_commit_all_or_nothing [] [([1], [7]), ([2], [8])] (by decide)
  exact ⟨h.1 ([1], [7]) (by decide), h.2⟩

/-- Claim C1: when `setup_height` is called with a header whose declared
previous hash does not match the hash indexed at the prior height, it fails
with the consistency-violation condition, which is a different error value
from plain `NotFoundErr`; a missing prior entry, by contrast, fails with
plain `NotFoundErr` — so the two conditions are never conflated. -/
theorem setup_height_distinguishes_violation_from_not_found
    (s : Store) (bh : BlockHeader) (hpos : 0 < bh.height) :
    (storeGet (heightIndexKey (bh.height - 1)) s = none →
      setup_height s bh = Except.error Error.NotFoundErr) ∧
    (∀ pb, storeGet (heightIndexKey (bh.height - 1)) s = some pb →
      pb ≠ bh.previous.data →
      setup_height s bh = Except.error consistencyErr ∧
        consistencyErr ≠ Error.NotFoundErr) := by
  have h0 : ¬ bh.height = 0 := by omega
  constructor
  · intro hnone
    simp [setup_height, h0, hnone]
  · intro pb hsome hne
    refine ⟨?_, by simp [consistencyErr]⟩
    simp [setup_height, h0, hsome, hne]

theorem setup_height_distinguishes_violation_from_not_found_witness :
    setup_height (storePut (heightIndexKey 5) [7, 7] []) ⟨6, ⟨[8, 8]⟩, ⟨[9, 9]⟩⟩ =
      Except.error consistencyErr ∧ consistencyErr ≠ Error.NotFoundErr :=
  (setup_height_distinguishes_violation_from_not_found
    (storePut (heightIndexKey 5) [7, 7] []) ⟨6, ⟨[8, 8]⟩, ⟨[9, 9]⟩⟩
    (by decide)).2 [7, 7] (by decide) (by decide)

/-- Claim C9: the head pointer and the header-head pointer are independent:
saving the header-head leaves `head()` unchanged, and saving the head leaves
`get_header_head()` unchanged, for every store state and tip. -/
theorem head_and_header_head_independent (s : Store) (t : Tip) :
    headOf (save_header_head s t) = headOf s ∧
    get_header_head (save_head s t) = get_header_head s := by
  have hne1 : headerHeadKey ≠ headKey := by decide
  have hne2 : headKey ≠ headerHeadKey := by decide
  constructor
  · simp only [headOf, save_header_head, get_ser,
      get_ser_limited_storePut_other tipDeser s headKey headerHeadKey (tipWrite t) 0 hne1]
  · simp only [get_header_head, save_head, get_ser,
      get_ser_limited_storePut_other tipDeser s headerHeadKey headKey (tipWrite t) 0 hne2]

theorem natToBytesBE_length (w n : Nat) : (natToBytesBE w n).length = w := by
  induction w with
  | zero => rfl
  | succ w ih => simp [natToBytesBE, ih]

theorem bytesToNatBE_natToBytesBE_mod (w n : Nat) :
    bytesToNatBE (natToBytesBE w n) = n % 256 ^ w := by
  induction w with
  | zero => simp [natToBytesBE, bytesToNatBE, Nat.mod_one]
  | succ w ih =>
    have hm : n % 256 ^ (w + 1) = n % 256 ^ w + 256 ^ w * (n / 256 ^ w % 256) := by
      rw [pow_succ]
      exact Nat.mod_mul
    simp only [natToBytesBE, bytesToNatBE, natToBytesBE_length, ih, hm]
    ring

theorem bytesToNatBE_natToBytesBE (w n : Nat) (h : n < 256 ^ w) :
    bytesToNatBE (natToBytesBE w n) = n := by
  rw [bytesToNatBE_natToBytesBE_mod, Nat.mod_eq_of_lt h]

theorem natToBytesBE_mod (w n : Nat) :
    natToBytesBE w (n % 256 ^ w) = natToBytesBE w n := by
  induction w generalizing n with
  | zero => rfl
  | succ w ih =>
    have hdvd : (256 : Nat) ^ w ∣ 256 ^ (w + 1) := pow_dvd_pow 256 (Nat.le_succ w)
    have hhead : n % 256 ^ (w + 1) / 256 ^ w % 256 = n / 256 ^ w % 256 := by
      rw [pow_succ, Nat.mod_mul_right_div_self]
      exact Nat.mod_mod_of_dvd _ dvd_rfl
    have htail : natToBytesBE w (n % 256 ^ (w + 1)) = natToBytesBE w n := by
      calc natToBytesBE w (n % 256 ^ (w + 1))
          = natToBytesBE w (n % 256 ^ (w + 1) % 256 ^ w) := (ih (n % 256 ^ (w + 1))).symm
        _ = natToBytesBE w (n % 256 ^ w) := by rw [Nat.mod_mod_of_dvd _ hdvd]
        _ = natToBytesBE w n := ih n
    simp only [natToBytesBE, hhead, htail]

theorem lexLt_natToBytesBE (w : Nat) : ∀ n m : Nat, n < m → m < 256 ^ w →
    lexLt (natToBytesBE w n) (natToBytesBE w m) = true := by
  induction w with
  | zero =>
    intro n m hnm hm
    exact absurd hm (by omega)
  | succ w ih =>
    intro n m hnm hm
    have hpos : 0 < (256 : Nat) ^ w := pow_pos (by norm_num) w
    have hn : n < 256 ^ (w + 1) := lt_trans hnm hm
    have hdn : n / 256 ^ w < 256 := by
      rw [Nat.div_lt_iff_lt_mul hpos]
      calc n < 256 ^ (w + 1) := hn
        _ = 256 * 256 ^ w := by ring
    have hdm : m / 256 ^ w < 256 := by
      rw [Nat.div_lt_iff_lt_mul hpos]
      calc m < 256 ^ (w + 1) := hm
        _ = 256 * 256 ^ w := by ring
    have hmodn : n / 256 ^ w % 256 = n / 256 ^ w := Nat.mod_eq_of_lt hdn
    have hmodm : m / 256 ^ w % 256 = m / 256 ^ w := Nat.mod_eq_of_lt hdm
    have hle : n / 256 ^ w ≤ m / 256 ^ w := Nat.div_le_div_right (le_of_lt hnm)
    simp only [natToBytesBE, lexLt, hmodn, hmodm]
    rcases lt_or_eq_of_le hle with hlt | heq
    · rw [if_pos hlt]
    · have htails : lexLt (natToBytesBE w n) (natToBytesBE w m) = true := by
        rw [← natToBytesBE_mod w n, ← natToBytesBE_mod w m]
        apply ih
        · have h1 := Nat.div_add_mod n (256 ^ w)
          have h2 := Nat.div_add_mod m (256 ^ w)
          rw [heq] at h1
          omega
        · exact Nat.mod_lt _ hpos
      rw [if_neg (by omega : ¬ n / 256 ^ w < m / 256 ^ w), if_pos heq, htails]

/-- Claim C5: `u64_to_key(tag, height)` produces exactly the tag byte, the
separator byte, then the 8-byte big-endian encoding of the height; and for a
fixed tag, keys of heights `h1 < h2` compare lexicographically in the same
order as the heights. -/
theorem u64_to_key_shape_and_order (p h1 h2 : Nat)
    (hlt : h1 < h2) (hbound : h2 < 256 ^ 8) :
    u64_to_key p h1 = p :: SEP :: natToBytesBE 8 h1 ∧
    (natToBytesBE 8 h1).length = 8 ∧
    bytesToNatBE (natToBytesBE 8 h1) = h1 ∧
    lexLt (u64_to_key p h1) (u64_to_key p h2) = true := by
  refine ⟨rfl, natToBytesBE_length 8 h1,
    bytesToNatBE_natToBytesBE 8 h1 (lt_trans hlt hbound), ?_⟩
  simp only [u64_to_key, lexLt, lt_self_iff_false, if_false, if_pos rfl]
  exact lexLt_natToBytesBE 8 h1 h2 hlt hbound

theorem u64_to_key_shape_and_order_witness :
    u64_to_key 56 5 = 56 :: SEP :: natToBytesBE 8 5 ∧
    (natToBytesBE 8 5).length = 8 ∧
    bytesToNatBE (natToBytesBE 8 5) = 5 ∧
    lexLt (u64_to_key 56 5) (u64_to_key 56 9) = true :=
  u64_to_key_shape_and_order 56 5 9 (by decide) (by decide)

theorem read_bytes_append (n : Nat) (xs rest : List Nat) (h : xs.length = n) :
    read_bytes n (xs ++ rest) = some (xs, rest) := by
  subst h
  simp [read_bytes, List.take_left, List.drop_left]

theorem read_u64_append (xs rest : List Nat) (h : xs.length = 8) :
    read_u64 (xs ++ rest) = some (bytesToNatBE xs, rest) := by
  simp [read_u64, read_bytes_append 8 xs rest h]

theorem hashRead_append (xs rest : List Nat) (h : xs.length = 32) :
    hashRead (xs ++ rest) = some (⟨xs⟩, rest) := by
  simp [hashRead, read_bytes_append 32 xs rest h]

theorem read_u64_exact (xs : List Nat) (h : xs.length = 8) :
    read_u64 xs = some (bytesToNatBE xs, []) := by
  have h2 := read_u64_append xs [] h
  simpa using h2

/-- Claim C3: for every tip whose fields fit their machine widths (a 64-bit
height and difficulty, 32-byte hashes) — the genesis shape with height 0 and
equal hashes included — serializing with the `Writeable` implementation and
deserializing with the `Readable` implementation yields a tip identical to
the original in every field, consuming the encoding exactly. -/
theorem tip_write_read_roundtrip (t : Tip)
    (hh : t.height < 256 ^ 8) (hl : t.last_block_h.data.length = 32)
    (hp : t.prev_block_h.data.length = 32) (hd : t.total_difficulty.num < 256 ^ 8) :
    tipRead (tipWrite t) = some (t, []) := by
  simp only [tipWrite, tipRead, List.append_assoc]
  rw [read_u64_append _ _ (natToBytesBE_length 8 t.height)]
  simp only [Option.some_bind]
  rw [hashRead_append _ _ hl]
  simp only [Option.some_bind]
  rw [hashRead_append _ _ hp]
  simp only [Option.some_bind]
  rw [read_u64_exact _ (natToBytesBE_length 8 t.total_difficulty.num)]
  simp only [Option.map_some']
  rw [bytesToNatBE_natToBytesBE 8 t.height hh,
    bytesToNatBE_natToBytesBE 8 t.total_difficulty.num hd]

theorem tip_write_read_roundtrip_witness :
    tipRead (tipWrite ⟨5, ⟨List.replicate 32 1⟩, ⟨List.replicate 32 2⟩, ⟨1000⟩⟩) =
      some (⟨5, ⟨List.replicate 32 1⟩, ⟨List.replicate 32 2⟩, ⟨1000⟩⟩, []) :=
  tip_write_read_roundtrip ⟨5, ⟨List.replicate 32 1⟩, ⟨List.replicate 32 2⟩, ⟨1000⟩⟩
    (by decide) (by decide) (by decide) (by decide)

end Grin
